import Mathlib

/-!
Verification of the pathfinding and scoring engine of `services/graph.py`
(celebrity-hunt backend): `calculate_access_score`, `find_best_path` and
`get_graph_data`, shallowly embedded over an explicit node list (the code
reads the list from the node store; the engine logic itself is pure).

Numeric model: Python integers are `Int`/`Nat` (arbitrary precision, exact).
Python `/` on numbers produces an IEEE-754 binary64 double; CPython's int/int
true division, float multiplication and float addition are all correctly
rounded to nearest, ties to even.  We model a double as the exact rational it
denotes and each float operation as exact rational arithmetic followed by
`roundFP`, correct rounding to 53-bit precision with the subnormal threshold
at exponent -1022 (overflow to infinity is not modelled; it is unreachable
for any physically realizable node list).  `int(x)` on a float truncates
toward zero (`pyTrunc`).  String lowering models `str.lower` on ASCII text.
-/

/-- A relationship node, as stored in the `nodes` table and consumed by the
graph service (fields selected/read by the three functions). -/
structure Node where
  id : String
  celebrity_id : String
  person_name : String
  role : String
  relationship_type : String
  hop_distance : ℤ
  warm_score : ℤ
  why_warm : String
  contact_info : String
deriving DecidableEq, Repr

/-- Fuel-based floor of log2 (structural recursion so that the kernel can
evaluate it on literals). -/
def lgA : Nat → Nat → Nat
  | 0, _ => 0
  | f + 1, n => if n < 2 then 0 else lgA f (n / 2) + 1

/-- Floor of log2 on naturals (`lg n` is meaningful for `1 ≤ n`). -/
def lg (n : Nat) : Nat := lgA n n

/-- Round a rational to an integer, to nearest with ties to even. -/
def rhe (q : ℚ) : ℤ :=
  if q - (⌊q⌋ : ℚ) < 1/2 then ⌊q⌋
  else if 1/2 < q - (⌊q⌋ : ℚ) then ⌊q⌋ + 1
  else if 2 ∣ ⌊q⌋ then ⌊q⌋ else ⌊q⌋ + 1

/-- First approximation of the binade exponent of a positive rational. -/
def qexp0 (q : ℚ) : ℤ := (lg q.num.toNat : ℤ) - (lg q.den : ℤ)

/-- Binade exponent: for `0 < q`, the unique `e` with `2^e ≤ q < 2^(e+1)`. -/
def qexp (q : ℚ) : ℤ :=
  if q < (2 : ℚ) ^ qexp0 q then qexp0 q - 1 else qexp0 q

/-- Exponent of the unit in the last place for binary64 at magnitude `q`
(clamped at the subnormal threshold). -/
def ulpExp (q : ℚ) : ℤ := max (qexp q) (-1022) - 52

/-- Correctly-rounded binary64 value of a positive rational. -/
def roundPos (q : ℚ) : ℚ := (rhe (q / (2 : ℚ) ^ ulpExp q) : ℚ) * (2 : ℚ) ^ ulpExp q

/-- Correctly-rounded binary64 value of a rational (round to nearest, ties
to even; subnormals exact; overflow not modelled). -/
def roundFP (q : ℚ) : ℚ :=
  if q < 0 then -roundPos (-q) else if q = 0 then 0 else roundPos q

/-- Python `int(x)` on a float: truncation toward zero. -/
def pyTrunc (q : ℚ) : ℤ := if q < 0 then -⌊-q⌋ else ⌊q⌋

/-- The binary64 double denoted by the Python literal `0.6`. -/
def c06 : ℚ := 5404319552844595 / 2 ^ 53

/-- `calculate_access_score` of `services/graph.py`, as a function of the
node set fetched for the celebrity.  `sum(...)/len(nodes)` is int/int true
division (correctly rounded binary64); `* 0.6` multiplies by the double
`c06`; the two `+` are float additions (the int bonuses are converted to
doubles first; `direct_bonus ≤ 20` converts exactly); `int(...)` truncates;
the result is clamped to `[10, 99]`. -/
def calculate_access_score (nodes : List Node) : ℤ :=
  if nodes = [] then 30
  else
    let avg_warm : ℚ := roundFP ((((nodes.map Node.warm_score).sum : ℤ) : ℚ) / (nodes.length : ℚ))
    let direct_nodes := nodes.filter (fun n => n.hop_distance == 1)
    let direct_bonus : ℕ := min (direct_nodes.length * 5) 20
    let variety_bonus : ℕ := (nodes.map Node.relationship_type).dedup.length * 3
    let score : ℤ :=
      pyTrunc (roundFP (roundFP (roundFP (avg_warm * c06) + (direct_bonus : ℚ)) + roundFP (variety_bonus : ℚ)))
    min (max score 10) 99

/-- The scoring formula exactly as the specification states it (claim C2):
`floor(avg_warm × 0.6 + direct_bonus + variety_bonus)` computed in exact
rational arithmetic with `0.6 = 3/5`, clamped to `[10, 99]`; `30` for the
empty set. -/
def specScoreExact (nodes : List Node) : ℤ :=
  if nodes = [] then 30
  else
    let avg_warm : ℚ := (((nodes.map Node.warm_score).sum : ℤ) : ℚ) / (nodes.length : ℚ)
    let direct_bonus : ℕ := min ((nodes.filter (fun n => n.hop_distance == 1)).length * 5) 20
    let variety_bonus : ℕ := (nodes.map Node.relationship_type).dedup.length * 3
    min (max ⌊avg_warm * (3/5) + (direct_bonus : ℚ) + (variety_bonus : ℚ)⌋ 10) 99

/-- Optional requester context passed to `find_best_path`
(`user_context.get("industry", "")` and `.get("connections", [])`). -/
structure UserContext where
  industry : String
  connections : List String
deriving DecidableEq, Repr

/-- Python `str.lower` (ASCII range), on the character list of a string. -/
def lowerStr (s : String) : List Char := s.data.map Char.toLower

/-- The lowered concatenation `role + " " + why_warm + " " + relationship_type`
matched against in `find_best_path`. -/
def nodeText (n : Node) : List Char :=
  lowerStr (n.role ++ " " ++ n.why_warm ++ " " ++ n.relationship_type)

/-- Whether `pat` is a prefix of the second list (helper for `hasSub`). -/
def pfxB : List Char → List Char → Bool
  | [], _ => true
  | _ :: _, [] => false
  | c :: cs, d :: ds => c == d && pfxB cs ds

/-- Python's substring test `pat in s` on character lists (the empty pattern
occurs in every string). -/
def hasSub (pat : List Char) : List Char → Bool
  | [] => pat.isEmpty
  | d :: ds => pfxB pat (d :: ds) || hasSub pat ds

/-- The per-node `final_score` computed by `find_best_path`: starts at
`warm_score`; with a (truthy) context, +15 when the lowered industry is
non-empty and occurs in the node text, then +10 per lowered connection
entry occurring in the node text. -/
def finalScore (ctx : Option UserContext) (n : Node) : ℤ :=
  match ctx with
  | none => n.warm_score
  | some c =>
    let user_industry := lowerStr c.industry
    let user_connections := c.connections.map lowerStr
    let node_text := nodeText n
    let s1 := n.warm_score +
      (if !user_industry.isEmpty && hasSub user_industry node_text then 15 else 0)
    user_connections.foldl (fun s conn => if hasSub conn node_text then s + 10 else s) s1

/-- A node together with its `final_score` (`{**node, "final_score": score}`). -/
structure ScoredNode where
  node : Node
  final_score : ℤ
deriving DecidableEq, Repr

/-- `find_best_path`'s scoring pass over the fetched nodes. -/
def scoreNodes (ctx : Option UserContext) (nodes : List Node) : List ScoredNode :=
  nodes.map (fun n => ⟨n, finalScore ctx n⟩)

/-- The Python sort key `(-x["hop_distance"] == 1, -x["final_score"])`:
by operator precedence the first component is the comparison
`(-hop_distance) == 1`, encoded as `1` for `True` and `0` for `False`
(Python sorts `False` before `True`). -/
def sortKey (s : ScoredNode) : ℤ × ℤ :=
  ((if -s.node.hop_distance = 1 then 1 else 0), -s.final_score)

/-- Ascending lexicographic comparison of sort keys, the total preorder that
`scored_nodes.sort(key=...)` sorts by. -/
def keyLE (a b : ScoredNode) : Prop :=
  (sortKey a).1 < (sortKey b).1 ∨ ((sortKey a).1 = (sortKey b).1 ∧ (sortKey a).2 ≤ (sortKey b).2)

instance : DecidableRel keyLE := fun a b => by unfold keyLE; infer_instance

/-- One hop of the recommended path (the dict literal appended to `path`). -/
structure PathEntry where
  person_name : String
  role : String
  relationship_type : String
  hop : ℤ
  warm_score : ℤ
  why_warm : String
  contact_info : String
  node_id : String
deriving DecidableEq, Repr

/-- Path-entry summary of a scored node. -/
def mkPathEntry (s : ScoredNode) : PathEntry :=
  ⟨s.node.person_name, s.node.role, s.node.relationship_type, s.node.hop_distance,
   s.node.warm_score, s.node.why_warm, s.node.contact_info, s.node.id⟩

/-- The lightweight node summary returned in `all_nodes`. -/
structure NodeSummary where
  person_name : String
  role : String
  warm_score : ℤ
  hop_distance : ℤ
  relationship_type : String
  contact_info : String
  node_id : String
deriving DecidableEq, Repr

/-- Summary shape of a scored node for `all_nodes`. -/
def mkSummary (s : ScoredNode) : NodeSummary :=
  ⟨s.node.person_name, s.node.role, s.node.warm_score, s.node.hop_distance,
   s.node.relationship_type, s.node.contact_info, s.node.id⟩

/-- The record returned by `find_best_path`.  The empty-set return carries no
`entry_point`/`all_nodes` keys, modelled by `none`/`[]`. -/
structure BestPath where
  path : List PathEntry
  total_hops : ℤ
  path_score : ℤ
  entry_point : Option PathEntry
  all_nodes : List NodeSummary
deriving DecidableEq, Repr

/-- `find_best_path` of `services/graph.py`, as a function of the fetched
node list and the optional user context.  Python's `list.sort` is a stable
sort by the key's total preorder, modelled by `List.insertionSort keyLE`
(stable by construction).  `max(...)` over the non-empty path is a fold;
`int(sum/len)` is int/int true division truncated. -/
def find_best_path (nodes : List Node) (ctx : Option UserContext) : BestPath :=
  if nodes = [] then ⟨[], 0, 0, none, []⟩
  else
    let scored_nodes := List.insertionSort keyLE (scoreNodes ctx nodes)
    match scored_nodes with
    | [] => ⟨[], 0, 0, none, []⟩  -- unreachable: sorting preserves length
    | entry_node :: _ =>
      let path : List PathEntry :=
        mkPathEntry entry_node ::
          (if 1 < entry_node.node.hop_distance then
            match scored_nodes.filter (fun s => s.node.hop_distance == 1) with
            | [] => []
            | bridge :: _ => [mkPathEntry bridge]
          else [])
      let total_hops : ℤ :=
        (match path.map PathEntry.hop with
         | [] => 0  -- unreachable: path is non-empty
         | h :: t => t.foldl max h) + 1
      let path_score : ℤ :=
        pyTrunc (roundFP ((((path.map PathEntry.warm_score).sum : ℤ) : ℚ) / (path.length : ℚ)))
      ⟨path, total_hops, path_score, some (mkPathEntry entry_node),
       (scored_nodes.take 8).map mkSummary⟩

/-- Visual node for the graph projection (`vis.js` shape).  The synthetic
celebrity node carries `font` styling and no domain metadata; member nodes
carry `title` and domain metadata and no `font`; `none` models an absent
dict key. -/
structure VisNode where
  id : String
  label : String
  group : String
  size : ℤ
  color_background : String
  color_border : String
  font_size : Option ℤ
  font_bold : Option Bool
  title : Option String
  hop_distance : Option ℤ
  warm_score : Option ℤ
  why_warm : Option String
  contact_info : Option String
deriving DecidableEq, Repr

/-- The synthetic target node heading `vis_nodes`. -/
def celebrityVisNode (celebrity_name : String) : VisNode :=
  ⟨"celebrity", celebrity_name, "celebrity", 40, "#FFD700", "#FFA500",
   some 16, some true, none, none, none, none, none⟩

/-- The fixed `color_map` lookup with fallback `"#A0A0A0"`. -/
def colorOf (rt : String) : String :=
  if rt = "manager" then "#FF6B6B"
  else if rt = "investor" then "#4ECDC4"
  else if rt = "collaborator" then "#45B7D1"
  else if rt = "media" then "#96CEB4"
  else if rt = "colleague" then "#FFEAA7"
  else if rt = "partner" then "#DDA0DD"
  else "#A0A0A0"

/-- The visual node built for one input node (`size` uses Python floor
division `warm_score // 10`). -/
def mkVisNode (n : Node) : VisNode :=
  ⟨n.id, n.person_name, n.relationship_type, 20 + Int.fdiv n.warm_score 10,
   colorOf n.relationship_type, colorOf n.relationship_type, none, none,
   some (n.role ++ "\nWarm score: " ++ toString n.warm_score ++ "/100"),
   some n.hop_distance, some n.warm_score, some n.why_warm, some n.contact_info⟩

/-- Visual edge (`width` uses the `cond and 3 or 1` idiom, which yields
`3` when `hop_distance == 1` and `1` otherwise since `3` is truthy). -/
structure VisEdge where
  from_ : String
  to_ : String
  label : String
  width : ℤ
  dashes : Bool
deriving DecidableEq, Repr

/-- The edge built for one input node. -/
def mkVisEdge (n : Node) : VisEdge :=
  ⟨n.id, "celebrity", n.relationship_type,
   if n.hop_distance = 1 then 3 else 1, decide (1 < n.hop_distance)⟩

/-- The `{nodes, edges}` record returned by `get_graph_data`. -/
structure GraphData where
  nodes : List VisNode
  edges : List VisEdge
deriving DecidableEq, Repr

/-- `get_graph_data` of `services/graph.py`: the celebrity node followed by
one visual node per input node, and one edge per input node (the loop
appends to both lists in input order, i.e. a map). -/
def get_graph_data (nodes_data : List Node) (celebrity_name : String) : GraphData :=
  ⟨celebrityVisNode celebrity_name :: nodes_data.map mkVisNode,
   nodes_data.map mkVisEdge⟩

/-! ### Properties of the binary64 rounding model -/

theorem lgA_spec : ∀ f n, 0 < n → n ≤ f → 2 ^ lgA f n ≤ n ∧ n < 2 ^ (lgA f n + 1) := by
  intro f
  induction f with
  | zero => intro n h1 h2; omega
  | succ f ih =>
    intro n h1 h2
    by_cases hn : n < 2
    · have : lgA (f + 1) n = 0 := by simp [lgA, hn]
      rw [this]; omega
    · have hrw : lgA (f + 1) n = lgA f (n / 2) + 1 := by simp [lgA, hn]
      have hpos : 0 < n / 2 := Nat.div_pos (by omega) (by omega)
      have hle : n / 2 ≤ f := by omega
      obtain ⟨ha, hb⟩ := ih (n / 2) hpos hle
      have hdm := Nat.div_add_mod n 2
      have hm : n % 2 < 2 := Nat.mod_lt _ (by omega)
      rw [hrw, pow_succ, pow_succ]
      omega

theorem lg_spec (n : ℕ) (h : 0 < n) : 2 ^ lg n ≤ n ∧ n < 2 ^ (lg n + 1) :=
  lgA_spec n n h le_rfl

theorem qexp_spec (q : ℚ) (hq : 0 < q) :
    (2 : ℚ) ^ qexp q ≤ q ∧ q < (2 : ℚ) ^ (qexp q + 1) := by
  have hnum : 0 < q.num := Rat.num_pos.mpr hq
  set a := q.num.toNat with hadef
  set b := q.den with hbdef
  have ha1 : 0 < a := by rw [hadef]; omega
  have hb1 : 0 < b := q.den_pos
  have hacast : ((a : ℤ) : ℚ) = (q.num : ℚ) := by
    simp [hadef, Int.toNat_of_nonneg hnum.le]
  have hqeq : q = (a : ℚ) / (b : ℚ) := by
    rw [show ((a : ℚ) = (q.num : ℚ)) from by exact_mod_cast hacast]
    exact (Rat.num_div_den q).symm
  obtain ⟨ha2, ha3⟩ := lg_spec a ha1
  obtain ⟨hb2, hb3⟩ := lg_spec b hb1
  have hbQ : (0 : ℚ) < (b : ℚ) := by exact_mod_cast hb1
  -- upper bound : q < 2 ^ (lg a - lg b + 1)
  have hup : q < (2 : ℚ) ^ ((lg a : ℤ) - (lg b : ℤ) + 1) := by
    rw [hqeq, div_lt_iff₀ hbQ]
    have h1 : (a : ℚ) < (2 : ℚ) ^ (lg a + 1) := by exact_mod_cast ha3
    have h2 : ((2 : ℚ)) ^ (lg b) ≤ (b : ℚ) := by exact_mod_cast hb2
    have hkey : (2 : ℚ) ^ ((lg a : ℤ) - (lg b : ℤ) + 1) * (2 : ℚ) ^ (lg b : ℤ) =
        (2 : ℚ) ^ ((lg a : ℤ) + 1) := by
      rw [← zpow_add₀ (two_ne_zero (α := ℚ))]; ring_nf
    calc (a : ℚ) < (2 : ℚ) ^ (lg a + 1) := h1
      _ = (2 : ℚ) ^ ((lg a : ℤ) + 1) := by
          rw [← zpow_natCast]; norm_cast
      _ = (2 : ℚ) ^ ((lg a : ℤ) - (lg b : ℤ) + 1) * (2 : ℚ) ^ (lg b : ℤ) := hkey.symm
      _ ≤ (2 : ℚ) ^ ((lg a : ℤ) - (lg b : ℤ) + 1) * (b : ℚ) := by
          apply mul_le_mul_of_nonneg_left _ (le_of_lt (zpow_pos two_pos _))
          rw [zpow_natCast]; exact h2
  -- lower bound : 2 ^ (lg a - lg b - 1) < q
  have hlow : (2 : ℚ) ^ ((lg a : ℤ) - (lg b : ℤ) - 1) < q := by
    rw [hqeq, lt_div_iff₀ hbQ]
    have h1 : ((2 : ℚ)) ^ (lg a) ≤ (a : ℚ) := by exact_mod_cast ha2
    have h2 : (b : ℚ) < (2 : ℚ) ^ (lg b + 1) := by exact_mod_cast hb3
    have hkey : (2 : ℚ) ^ ((lg a : ℤ) - (lg b : ℤ) - 1) * (2 : ℚ) ^ ((lg b : ℤ) + 1) =
        (2 : ℚ) ^ (lg a : ℤ) := by
      rw [← zpow_add₀ (two_ne_zero (α := ℚ))]; ring_nf
    calc (2 : ℚ) ^ ((lg a : ℤ) - (lg b : ℤ) - 1) * (b : ℚ)
        < (2 : ℚ) ^ ((lg a : ℤ) - (lg b : ℤ) - 1) * (2 : ℚ) ^ ((lg b : ℤ) + 1) := by
          apply mul_lt_mul_of_pos_left _ (zpow_pos two_pos _)
          calc (b : ℚ) < (2 : ℚ) ^ (lg b + 1) := h2
            _ = (2 : ℚ) ^ ((lg b : ℤ) + 1) := by rw [← zpow_natCast]; norm_cast
      _ = (2 : ℚ) ^ (lg a : ℤ) := hkey
      _ ≤ (a : ℚ) := by rw [zpow_natCast]; exact h1
  have hq0 : qexp0 q = (lg a : ℤ) - (lg b : ℤ) := by simp [qexp0, hadef, hbdef]
  have hqexp : qexp q = if q < (2 : ℚ) ^ ((lg a : ℤ) - (lg b : ℤ)) then
      (lg a : ℤ) - (lg b : ℤ) - 1 else (lg a : ℤ) - (lg b : ℤ) := by
    rw [qexp, hq0]
  by_cases hc : q < (2 : ℚ) ^ ((lg a : ℤ) - (lg b : ℤ))
  · rw [hqexp, if_pos hc]
    refine ⟨hlow.le, ?_⟩
    have harith : (lg a : ℤ) - (lg b : ℤ) - 1 + 1 = (lg a : ℤ) - (lg b : ℤ) := by ring
    rw [harith]
    exact hc
  · rw [hqexp, if_neg hc]
    exact ⟨le_of_not_lt hc, hup⟩

theorem qexp_mono {x y : ℚ} (hx : 0 < x) (hxy : x ≤ y) : qexp x ≤ qexp y := by
  have hy : 0 < y := lt_of_lt_of_le hx hxy
  obtain ⟨hx1, _⟩ := qexp_spec x hx
  obtain ⟨_, hy2⟩ := qexp_spec y hy
  have hlt : (2 : ℚ) ^ qexp x < (2 : ℚ) ^ (qexp y + 1) :=
    lt_of_le_of_lt (le_trans hx1 hxy) hy2
  have := (zpow_lt_zpow_iff_right₀ (one_lt_two (α := ℚ))).mp hlt
  omega

theorem ulpExp_mono {x y : ℚ} (hx : 0 < x) (hxy : x ≤ y) : ulpExp x ≤ ulpExp y := by
  have := qexp_mono hx hxy
  unfold ulpExp
  omega

theorem floor_le_rhe (q : ℚ) : ⌊q⌋ ≤ rhe q := by
  unfold rhe
  split_ifs <;> omega

theorem rhe_le_floor_add_one (q : ℚ) : rhe q ≤ ⌊q⌋ + 1 := by
  unfold rhe
  split_ifs <;> omega

theorem rhe_mono {x y : ℚ} (hxy : x ≤ y) : rhe x ≤ rhe y := by
  have hfle : ⌊x⌋ ≤ ⌊y⌋ := Int.floor_le_floor hxy
  by_cases hf : ⌊x⌋ = ⌊y⌋
  · simp only [rhe, hf]
    have hr : x - (⌊y⌋ : ℚ) ≤ y - (⌊y⌋ : ℚ) := by linarith
    split_ifs <;> first | omega | linarith
  · have hstrict : ⌊x⌋ < ⌊y⌋ := lt_of_le_of_ne hfle hf
    calc rhe x ≤ ⌊x⌋ + 1 := rhe_le_floor_add_one x
      _ ≤ ⌊y⌋ := by omega
      _ ≤ rhe y := floor_le_rhe y

theorem roundPos_le_pow (q : ℚ) (hq : 0 < q) : roundPos q ≤ (2 : ℚ) ^ (qexp q + 1) := by
  set u := ulpExp q with hu
  set e := qexp q with he
  have hu2 : (0 : ℚ) < (2 : ℚ) ^ u := zpow_pos two_pos u
  have ht : q / (2 : ℚ) ^ u < (2 : ℚ) ^ (e + 1 - u) := by
    rw [div_lt_iff₀ hu2, ← zpow_add₀ (two_ne_zero (α := ℚ))]
    have harith : e + 1 - u + u = e + 1 := by ring
    rw [harith]
    exact (qexp_spec q hq).2
  by_cases hcase : 0 ≤ e + 1 - u
  · set k := (e + 1 - u).toNat with hk
    have hkc : (k : ℤ) = e + 1 - u := Int.toNat_of_nonneg hcase
    have hM : (((2 : ℤ) ^ k : ℤ) : ℚ) = (2 : ℚ) ^ (e + 1 - u) := by
      push_cast
      rw [← hkc, zpow_natCast]
    have hfl : rhe (q / (2 : ℚ) ^ u) ≤ 2 ^ k := by
      have h1 : ⌊q / (2 : ℚ) ^ u⌋ < 2 ^ k := Int.floor_lt.mpr (by rw [hM]; exact ht)
      have h2 := rhe_le_floor_add_one (q / (2 : ℚ) ^ u)
      omega
    calc roundPos q = (rhe (q / (2 : ℚ) ^ u) : ℚ) * (2 : ℚ) ^ u := rfl
      _ ≤ (((2 : ℤ) ^ k : ℤ) : ℚ) * (2 : ℚ) ^ u := by
          apply mul_le_mul_of_nonneg_right _ hu2.le
          exact_mod_cast hfl
      _ = (2 : ℚ) ^ (e + 1 - u) * (2 : ℚ) ^ u := by rw [hM]
      _ = (2 : ℚ) ^ (e + 1) := by
          rw [← zpow_add₀ (two_ne_zero (α := ℚ))]
          ring_nf
  · have hhalf : q / (2 : ℚ) ^ u < 1 / 2 := by
      apply lt_of_lt_of_le ht
      calc (2 : ℚ) ^ (e + 1 - u) ≤ (2 : ℚ) ^ (-1 : ℤ) :=
            zpow_le_zpow_right₀ one_le_two (by omega)
        _ = 1 / 2 := by norm_num
    have hpos : 0 < q / (2 : ℚ) ^ u := div_pos hq hu2
    have hfl0 : ⌊q / (2 : ℚ) ^ u⌋ = 0 := by
      apply Int.floor_eq_zero_iff.mpr
      constructor
      · exact hpos.le
      · linarith
    have hrhe0 : rhe (q / (2 : ℚ) ^ u) = 0 := by
      unfold rhe
      rw [hfl0]
      have hcond : q / (2 : ℚ) ^ u - ((0 : ℤ) : ℚ) < 1 / 2 := by push_cast; linarith
      rw [if_pos hcond]
    calc roundPos q = (rhe (q / (2 : ℚ) ^ u) : ℚ) * (2 : ℚ) ^ u := rfl
      _ = 0 := by rw [hrhe0]; simp
      _ ≤ (2 : ℚ) ^ (e + 1) := (zpow_pos two_pos _).le

theorem pow_le_roundPos (q : ℚ) (hq : 0 < q) (he : -1022 ≤ qexp q) :
    (2 : ℚ) ^ qexp q ≤ roundPos q := by
  set e := qexp q with hedef
  have hu : ulpExp q = e - 52 := by
    unfold ulpExp
    omega
  have hu2 : (0 : ℚ) < (2 : ℚ) ^ (e - 52) := zpow_pos two_pos _
  have ht : ((2 : ℤ) ^ (52 : ℕ) : ℚ) ≤ q / (2 : ℚ) ^ (e - 52) := by
    rw [le_div_iff₀ hu2]
    push_cast
    calc ((2 : ℚ) ^ (52 : ℕ)) * (2 : ℚ) ^ (e - 52)
        = (2 : ℚ) ^ (52 : ℤ) * (2 : ℚ) ^ (e - 52) := by norm_cast
      _ = (2 : ℚ) ^ e := by
          rw [← zpow_add₀ (two_ne_zero (α := ℚ))]
          ring_nf
      _ ≤ q := (qexp_spec q hq).1
  have hfl : (2 : ℤ) ^ (52 : ℕ) ≤ ⌊q / (2 : ℚ) ^ (e - 52)⌋ := Int.le_floor.mpr ht
  have hrhe : (2 : ℤ) ^ (52 : ℕ) ≤ rhe (q / (2 : ℚ) ^ (e - 52)) := by
    have := floor_le_rhe (q / (2 : ℚ) ^ (e - 52))
    omega
  calc (2 : ℚ) ^ e = ((2 : ℤ) ^ (52 : ℕ) : ℚ) * (2 : ℚ) ^ (e - 52) := by
        push_cast
        rw [show ((2:ℚ) ^ (52:ℕ)) = (2:ℚ) ^ (52 : ℤ) from by norm_cast,
            ← zpow_add₀ (two_ne_zero (α := ℚ))]
        ring_nf
    _ ≤ (rhe (q / (2 : ℚ) ^ (e - 52)) : ℚ) * (2 : ℚ) ^ (e - 52) := by
        apply mul_le_mul_of_nonneg_right _ hu2.le
        exact_mod_cast hrhe
    _ = roundPos q := by rw [roundPos, hu]

theorem roundPos_nonneg (q : ℚ) (hq : 0 < q) : 0 ≤ roundPos q := by
  have hu2 : (0 : ℚ) < (2 : ℚ) ^ ulpExp q := zpow_pos two_pos _
  have hpos : 0 < q / (2 : ℚ) ^ ulpExp q := div_pos hq hu2
  have h1 : (0 : ℤ) ≤ ⌊q / (2 : ℚ) ^ ulpExp q⌋ := Int.floor_nonneg.mpr hpos.le
  have h2 := floor_le_rhe (q / (2 : ℚ) ^ ulpExp q)
  apply mul_nonneg _ hu2.le
  exact_mod_cast (by omega : (0 : ℤ) ≤ rhe (q / (2 : ℚ) ^ ulpExp q))

theorem roundPos_mono {x y : ℚ} (hx : 0 < x) (hxy : x ≤ y) : roundPos x ≤ roundPos y := by
  have hy : 0 < y := lt_of_lt_of_le hx hxy
  have hum : ulpExp x ≤ ulpExp y := ulpExp_mono hx hxy
  rcases eq_or_lt_of_le hum with heq | hlt
  · unfold roundPos
    rw [← heq]
    have hu2 : (0 : ℚ) < (2 : ℚ) ^ ulpExp x := zpow_pos two_pos _
    apply mul_le_mul_of_nonneg_right _ hu2.le
    have hdd : x / (2 : ℚ) ^ ulpExp x ≤ y / (2 : ℚ) ^ ulpExp x := by gcongr
    exact_mod_cast rhe_mono hdd
  · have hexy : qexp x < qexp y ∧ -1022 < qexp y := by
      unfold ulpExp at hlt
      omega
    calc roundPos x ≤ (2 : ℚ) ^ (qexp x + 1) := roundPos_le_pow x hx
      _ ≤ (2 : ℚ) ^ qexp y := zpow_le_zpow_right₀ one_le_two (by omega)
      _ ≤ roundPos y := pow_le_roundPos y hy (by omega)

theorem roundFP_mono {x y : ℚ} (hxy : x ≤ y) : roundFP x ≤ roundFP y := by
  unfold roundFP
  by_cases hx1 : x < 0
  · by_cases hy1 : y < 0
    · rw [if_pos hx1, if_pos hy1]
      have hmono : roundPos (-y) ≤ roundPos (-x) := roundPos_mono (by linarith) (by linarith)
      linarith
    · rw [if_pos hx1, if_neg hy1]
      have hxneg : 0 ≤ roundPos (-x) := roundPos_nonneg (-x) (by linarith)
      by_cases hy2 : y = 0
      · rw [if_pos hy2]
        linarith
      · rw [if_neg hy2]
        push_neg at hy1
        have hypos : 0 ≤ roundPos y := roundPos_nonneg y (lt_of_le_of_ne hy1 (Ne.symm hy2))
        linarith
  · have hx0 : 0 ≤ x := not_lt.mp hx1
    have hy1 : ¬y < 0 := by linarith
    rw [if_neg hx1, if_neg hy1]
    by_cases hx2 : x = 0
    · rw [if_pos hx2]
      by_cases hy2 : y = 0
      · rw [if_pos hy2]
      · rw [if_neg hy2]
        exact roundPos_nonneg y (lt_of_le_of_ne (by linarith) (Ne.symm hy2))
    · rw [if_neg hx2]
      have hxp : 0 < x := lt_of_le_of_ne hx0 (Ne.symm hx2)
      have hy2 : ¬y = 0 := by
        intro h
        rw [h] at hxy
        linarith
      rw [if_neg hy2]
      exact roundPos_mono hxp hxy

theorem pyTrunc_mono {x y : ℚ} (hxy : x ≤ y) : pyTrunc x ≤ pyTrunc y := by
  unfold pyTrunc
  have hf := Int.floor_le_floor hxy
  split_ifs with hx hy hy
  · have : ⌊-y⌋ ≤ ⌊-x⌋ := Int.floor_le_floor (by linarith)
    omega
  · have h1 : (0 : ℤ) ≤ ⌊-x⌋ := Int.floor_nonneg.mpr (by linarith)
    have h2 : (0 : ℤ) ≤ ⌊y⌋ := Int.floor_nonneg.mpr (by linarith)
    omega
  · exfalso; linarith
  · exact hf

/-- `roundFP` is the identity on integers (used to evaluate exact float
conversions in witnesses; not needed for the main theorems). -/
theorem roundFP_zero : roundFP 0 = 0 := by simp [roundFP]

/-- Monotonicity of the non-empty access-score arithmetic in the warm sum. -/
theorem accessScore_core_mono (L : ℕ) (db vb : ℕ) (s s' : ℤ) (h : s ≤ s') :
    min (max (pyTrunc (roundFP (roundFP (roundFP (roundFP ((s : ℚ) / (L : ℚ)) * c06)
        + (db : ℚ)) + roundFP (vb : ℚ)))) 10) 99 ≤
    min (max (pyTrunc (roundFP (roundFP (roundFP (roundFP ((s' : ℚ) / (L : ℚ)) * c06)
        + (db : ℚ)) + roundFP (vb : ℚ)))) 10) 99 := by
  have hc06 : (0 : ℚ) ≤ c06 := by norm_num [c06]
  have h1 : (s : ℚ) / (L : ℚ) ≤ (s' : ℚ) / (L : ℚ) := by
    rcases Nat.eq_zero_or_pos L with h0 | hpos
    · simp [h0]
    · have hLQ : (0 : ℚ) < (L : ℚ) := by exact_mod_cast hpos
      have hss : (s : ℚ) ≤ (s' : ℚ) := by exact_mod_cast h
      gcongr
  have h2 := roundFP_mono h1
  have h3 : roundFP ((s : ℚ) / (L : ℚ)) * c06 ≤ roundFP ((s' : ℚ) / (L : ℚ)) * c06 :=
    mul_le_mul_of_nonneg_right h2 hc06
  have h4 := roundFP_mono h3
  have h5 : roundFP (roundFP ((s : ℚ) / (L : ℚ)) * c06) + (db : ℚ) ≤
      roundFP (roundFP ((s' : ℚ) / (L : ℚ)) * c06) + (db : ℚ) := by linarith
  have h6 := roundFP_mono h5
  have h7 := roundFP_mono (by linarith :
      roundFP (roundFP (roundFP ((s : ℚ) / (L : ℚ)) * c06) + (db : ℚ)) + roundFP (vb : ℚ) ≤
      roundFP (roundFP (roundFP ((s' : ℚ) / (L : ℚ)) * c06) + (db : ℚ)) + roundFP (vb : ℚ))
  have h8 := pyTrunc_mono h7
  exact min_le_min (max_le_max h8 (le_refl 10)) (le_refl 99)

/-- Claim C3: for every node set and every node in it, increasing that
node's `warm_score` while holding all other nodes and fields fixed never
decreases `calculate_access_score` (the clamp to `[10, 99]` preserves
monotonicity). -/
theorem calculate_access_score_warm_mono (l1 l2 : List Node) (a : Node) (w' : ℤ)
    (h : a.warm_score ≤ w') :
    calculate_access_score (l1 ++ a :: l2) ≤
      calculate_access_score (l1 ++ { a with warm_score := w' } :: l2) := by
  have hne : l1 ++ a :: l2 ≠ [] := by simp
  have hne' : l1 ++ { a with warm_score := w' } :: l2 ≠ [] := by simp
  have hhop : ({ a with warm_score := w' } : Node).hop_distance = a.hop_distance := rfl
  have hrel : ({ a with warm_score := w' } : Node).relationship_type = a.relationship_type := rfl
  have hlen : (l1 ++ ({ a with warm_score := w' } : Node) :: l2).length =
      (l1 ++ a :: l2).length := by simp
  have hfil : ((l1 ++ ({ a with warm_score := w' } : Node) :: l2).filter
          (fun n => n.hop_distance == 1)).length =
      ((l1 ++ a :: l2).filter (fun n => n.hop_distance == 1)).length := by
    simp only [List.filter_append, List.filter_cons, hhop, List.length_append]
    split_ifs <;> simp
  have hmap : (l1 ++ ({ a with warm_score := w' } : Node) :: l2).map Node.relationship_type =
      (l1 ++ a :: l2).map Node.relationship_type := by
    simp [hrel]
  have hsum : ((l1 ++ a :: l2).map Node.warm_score).sum ≤
      ((l1 ++ ({ a with warm_score := w' } : Node) :: l2).map Node.warm_score).sum := by
    have hw : ({ a with warm_score := w' } : Node).warm_score = w' := rfl
    simp only [List.map_append, List.map_cons, List.sum_append, List.sum_cons, hw]
    omega
  simp only [calculate_access_score, if_neg hne, if_neg hne']
  rw [hlen, hfil, hmap]
  exact accessScore_core_mono _ _ _ _ _ hsum

theorem qexp_eq_of (q : ℚ) (e : ℤ) (hq : 0 < q)
    (h1 : (2 : ℚ) ^ e ≤ q) (h2 : q < (2 : ℚ) ^ (e + 1)) : qexp q = e := by
  obtain ⟨hs1, hs2⟩ := qexp_spec q hq
  have ha : (2 : ℚ) ^ qexp q < (2 : ℚ) ^ (e + 1) := lt_of_le_of_lt hs1 h2
  have hb : (2 : ℚ) ^ e < (2 : ℚ) ^ (qexp q + 1) := lt_of_le_of_lt h1 hs2
  have ha' := (zpow_lt_zpow_iff_right₀ (one_lt_two (α := ℚ))).mp ha
  have hb' := (zpow_lt_zpow_iff_right₀ (one_lt_two (α := ℚ))).mp hb
  omega

theorem roundFP_eval_pos (q : ℚ) (e : ℤ) (m : ℤ) (hq : 0 < q)
    (h1 : (2 : ℚ) ^ e ≤ q) (h2 : q < (2 : ℚ) ^ (e + 1)) (h3 : -1022 ≤ e)
    (hm : rhe (q / (2 : ℚ) ^ (e - 52)) = m) :
    roundFP q = (m : ℚ) * (2 : ℚ) ^ (e - 52) := by
  have hqe : qexp q = e := qexp_eq_of q e hq h1 h2
  have hne1 : ¬q < 0 := not_lt.mpr hq.le
  have hne2 : q ≠ 0 := ne_of_gt hq
  rw [roundFP, if_neg hne1, if_neg hne2, roundPos]
  have hu : ulpExp q = e - 52 := by
    unfold ulpExp
    omega
  rw [hu, hm]

theorem rhe_eq_of_lt_half (t : ℚ) (n : ℤ) (h1 : (n : ℚ) ≤ t) (h2 : t < (n : ℚ) + 1/2) :
    rhe t = n := by
  have hfl : ⌊t⌋ = n := Int.floor_eq_iff.mpr ⟨h1, by linarith⟩
  unfold rhe
  rw [hfl, if_pos (by linarith : t - (n : ℚ) < 1/2)]

theorem rhe_intCast (n : ℤ) : rhe ((n : ℤ) : ℚ) = n := by
  apply rhe_eq_of_lt_half
  · exact le_refl _
  · linarith [show (0 : ℚ) < 1/2 by norm_num]

/-- A concrete node used in counterexamples and witnesses. -/
def sampleNode (hop warm : ℤ) (rt : String) : Node :=
  ⟨"id1", "c1", "Person", "role", rt, hop, warm, "why", "contact"⟩

/-- Three 2-hop nodes with warm scores 69, 68, 68 and a single relationship
type: the node set on which binary64 rounding visibly diverges from the
exact-rational scoring formula. -/
def c2Nodes : List Node := [sampleNode 2 69 "m", sampleNode 2 68 "m", sampleNode 2 68 "m"]

theorem c2_avg_eval :
    roundFP ((205 : ℚ) / 3) = (4808530852140373 : ℤ) * (2 : ℚ) ^ ((6 : ℤ) - 52) := by
  apply roundFP_eval_pos _ 6 _ (by norm_num) (by norm_num) (by norm_num) (by norm_num)
  have harg : (205 : ℚ) / 3 / (2 : ℚ) ^ ((6 : ℤ) - 52) = 14425592556421120/3 := by
    norm_num
  rw [harg]
  apply rhe_eq_of_lt_half
  · norm_num
  · norm_num

theorem c2_mul_eval :
    roundFP (((4808530852140373 : ℤ) * (2 : ℚ) ^ ((6 : ℤ) - 52)) * c06) =
      (5770237022568447 : ℤ) * (2 : ℚ) ^ ((5 : ℤ) - 52) := by
  apply roundFP_eval_pos _ 5 _ ?_ ?_ ?_ (by norm_num) ?_
  · rw [c06]; norm_num
  · rw [c06]; norm_num
  · rw [c06]; norm_num
  · have harg : ((4808530852140373 : ℤ) * (2 : ℚ) ^ ((6 : ℤ) - 52)) * c06 / (2 : ℚ) ^ ((5 : ℤ) - 52) =
        25986837304678699967536394333935 / 4503599627370496 := by
      rw [c06]; norm_num
    rw [harg]
    apply rhe_eq_of_lt_half
    · norm_num
    · norm_num

theorem c2_add0_eval :
    roundFP ((5770237022568447 : ℤ) * (2 : ℚ) ^ ((5 : ℤ) - 52)) =
      (5770237022568447 : ℤ) * (2 : ℚ) ^ ((5 : ℤ) - 52) := by
  apply roundFP_eval_pos _ 5 _ (by norm_num) (by norm_num) (by norm_num) (by norm_num)
  have harg : (5770237022568447 : ℤ) * (2 : ℚ) ^ ((5 : ℤ) - 52) / (2 : ℚ) ^ ((5 : ℤ) - 52) =
      ((5770237022568447 : ℤ) : ℚ) := by norm_num
  rw [harg, rhe_intCast]

theorem c2_conv3_eval : roundFP (3 : ℚ) = 3 := by
  have h3 : roundFP (3 : ℚ) = (6755399441055744 : ℤ) * (2 : ℚ) ^ ((1 : ℤ) - 52) := by
    apply roundFP_eval_pos _ 1 _ (by norm_num) (by norm_num) (by norm_num) (by norm_num)
    have harg : (3 : ℚ) / (2 : ℚ) ^ ((1 : ℤ) - 52) = ((6755399441055744 : ℤ) : ℚ) := by
      norm_num
    rw [harg, rhe_intCast]
  rw [h3]
  norm_num

theorem c2_add3_eval :
    roundFP ((5770237022568447 : ℤ) * (2 : ℚ) ^ ((5 : ℤ) - 52) + 3) =
      (6192449487634431 : ℤ) * (2 : ℚ) ^ ((5 : ℤ) - 52) := by
  apply roundFP_eval_pos _ 5 _ (by norm_num) (by norm_num) (by norm_num) (by norm_num)
  have harg : ((5770237022568447 : ℤ) * (2 : ℚ) ^ ((5 : ℤ) - 52) + 3) / (2 : ℚ) ^ ((5 : ℤ) - 52) =
      ((6192449487634431 : ℤ) : ℚ) := by norm_num
  rw [harg, rhe_intCast]

theorem c2_code_value : calculate_access_score c2Nodes = 43 := by
  have hne : c2Nodes ≠ [] := by decide
  have hsum : ((c2Nodes.map Node.warm_score).sum : ℤ) = 205 := by decide
  have hlen : c2Nodes.length = 3 := by decide
  have hfil : (c2Nodes.filter (fun n => n.hop_distance == 1)).length = 0 := by decide
  have hded : (c2Nodes.map Node.relationship_type).dedup.length = 1 := by decide
  simp only [calculate_access_score, if_neg hne, hsum, hlen, hfil, hded]
  norm_num
  rw [c2_avg_eval, c2_mul_eval, c2_add0_eval, c2_conv3_eval, c2_add3_eval]
  have htr : pyTrunc ((6192449487634431 : ℤ) * (2 : ℚ) ^ ((5 : ℤ) - 52)) = 43 := by
    rw [pyTrunc, if_neg (by norm_num)]
    apply Int.floor_eq_iff.mpr
    constructor
    · norm_num
    · norm_num
  rw [htr]
  decide

theorem c2_spec_value : specScoreExact c2Nodes = 44 := by
  have hne : c2Nodes ≠ [] := by decide
  have hsum : ((c2Nodes.map Node.warm_score).sum : ℤ) = 205 := by decide
  have hlen : c2Nodes.length = 3 := by decide
  have hfil : (c2Nodes.filter (fun n => n.hop_distance == 1)).length = 0 := by decide
  have hded : (c2Nodes.map Node.relationship_type).dedup.length = 1 := by decide
  simp only [specScoreExact, if_neg hne, hsum, hlen, hfil, hded]
  norm_num

/-- Counterexample to claim C2 as stated: on the node set with warm scores
69, 68, 68 (all `hop_distance` 2, one relationship type) the code returns 43,
while `floor(avg_warm × 0.6 + direct_bonus + variety_bonus)` clamped — the
spec's exact-rational formula (`specScoreExact`) — is 44: CPython evaluates
`sum/len` and `* 0.6` in binary64, and `(205/3) * 0.6` rounds to
40.99999999999999289…, which truncates to 40, not 41. -/
theorem c2_counterexample :
    calculate_access_score c2Nodes = 43 ∧ specScoreExact c2Nodes = 44 :=
  ⟨c2_code_value, c2_spec_value⟩

/-- Claim C2 (amended): `calculate_access_score` always returns an integer
in `[10, 99]`; exactly 30 on the empty set; and on a non-empty set it
returns `int(avg_warm * 0.6 + direct_bonus + variety_bonus)` clamped to
`[10, 99]`, where the mean, the product with the double `0.6` and the two
additions are binary64 operations (exact arithmetic followed by `roundFP`)
rather than exact rational arithmetic. -/
theorem c2_amended (nodes : List Node) :
    10 ≤ calculate_access_score nodes ∧ calculate_access_score nodes ≤ 99 ∧
    (nodes = [] → calculate_access_score nodes = 30) ∧
    (nodes ≠ [] →
      calculate_access_score nodes =
        min (max (pyTrunc (roundFP (roundFP (roundFP (roundFP
            ((((nodes.map Node.warm_score).sum : ℤ) : ℚ) / (nodes.length : ℚ)) * c06)
            + ((min ((nodes.filter (fun n => n.hop_distance == 1)).length * 5) 20 : ℕ) : ℚ))
            + roundFP (((nodes.map Node.relationship_type).dedup.length * 3 : ℕ) : ℚ)))) 10) 99) := by
  refine ⟨?_, ?_, ?_, ?_⟩
  · rw [calculate_access_score]
    split_ifs
    · norm_num
    · exact le_min (le_max_right _ _) (by norm_num)
  · rw [calculate_access_score]
    split_ifs
    · norm_num
    · exact min_le_right _ _
  · intro h
    simp [calculate_access_score, h]
  · intro h
    simp only [calculate_access_score, if_neg h]

/-- Witness for the amended C2 on the concrete node set `c2Nodes`. -/
theorem c2_amended_witness :
    c2Nodes ≠ [] ∧
    calculate_access_score c2Nodes =
      min (max (pyTrunc (roundFP (roundFP (roundFP (roundFP
          ((((c2Nodes.map Node.warm_score).sum : ℤ) : ℚ) / (c2Nodes.length : ℚ)) * c06)
          + ((min ((c2Nodes.filter (fun n => n.hop_distance == 1)).length * 5) 20 : ℕ) : ℚ))
          + roundFP (((c2Nodes.map Node.relationship_type).dedup.length * 3 : ℕ) : ℚ)))) 10) 99 :=
  ⟨by decide, (c2_amended c2Nodes).2.2.2 (by decide)⟩

/-- Witness for C3: raising the single node's warm score from 40 to 50. -/
theorem calculate_access_score_warm_mono_witness :
    (sampleNode 1 40 "m").warm_score ≤ 50 ∧
    calculate_access_score ([] ++ sampleNode 1 40 "m" :: []) ≤
      calculate_access_score ([] ++ { sampleNode 1 40 "m" with warm_score := 50 } :: []) :=
  ⟨by decide, calculate_access_score_warm_mono [] [] (sampleNode 1 40 "m") 50 (by decide)⟩

/-- The failing input for claim C1: the 2-hop node has the higher warm
score, so under the actual sort key `((-hop) == 1, -final_score)` it ranks
first; the database fetch orders by `warm_score` descending, so this input
order is realizable. -/
def c1Nodes : List Node := [sampleNode 2 90 "m", sampleNode 1 50 "m"]

/-- Claim C1 evaluated at the failing input: the node set contains a node
with `hop_distance == 1`, yet the returned path has two elements and its
entry point has `hop_distance` 2 — `(-hop) == 1` is `False` for every
positive hop, so the ranking never prioritizes 1-hop nodes, contradicting
the claim (and the code's own comments). -/
theorem c1_sort_bug_eval :
    (find_best_path c1Nodes none).path.map PathEntry.hop = [2, 1] ∧
    c1Nodes.map Node.hop_distance = [2, 1] := by
  constructor <;> decide

/-- Claim C6: on the empty node set none of the three operations errors:
scoring returns 30, path selection returns the record with `path = []`,
`total_hops = 0`, `path_score = 0` (and no entry point or node summaries),
and graph projection returns only the synthetic target node and no edges. -/
theorem empty_node_set_steady_states (ctx : Option UserContext) (nm : String) :
    calculate_access_score [] = 30 ∧
    find_best_path [] ctx = ⟨[], 0, 0, none, []⟩ ∧
    get_graph_data [] nm = ⟨[celebrityVisNode nm], []⟩ :=
  ⟨rfl, rfl, rfl⟩

/-- Claim C7: `find_best_path` is deterministic — two runs on identical
node sequences and identical optional context agree on every field of the
returned record. -/
theorem find_best_path_deterministic (ns1 ns2 : List Node) (c1 c2 : Option UserContext)
    (h1 : ns1 = ns2) (h2 : c1 = c2) :
    (find_best_path ns1 c1).path = (find_best_path ns2 c2).path ∧
    (find_best_path ns1 c1).total_hops = (find_best_path ns2 c2).total_hops ∧
    (find_best_path ns1 c1).path_score = (find_best_path ns2 c2).path_score ∧
    (find_best_path ns1 c1).entry_point = (find_best_path ns2 c2).entry_point ∧
    (find_best_path ns1 c1).all_nodes = (find_best_path ns2 c2).all_nodes := by
  subst h1
  subst h2
  exact ⟨rfl, rfl, rfl, rfl, rfl⟩

/-- Witness for C7 at a concrete input. -/
theorem find_best_path_deterministic_witness :
    (find_best_path c1Nodes none).path = (find_best_path c1Nodes none).path ∧
    (find_best_path c1Nodes none).total_hops = (find_best_path c1Nodes none).total_hops ∧
    (find_best_path c1Nodes none).path_score = (find_best_path c1Nodes none).path_score ∧
    (find_best_path c1Nodes none).entry_point = (find_best_path c1Nodes none).entry_point ∧
    (find_best_path c1Nodes none).all_nodes = (find_best_path c1Nodes none).all_nodes :=
  find_best_path_deterministic c1Nodes c1Nodes none none rfl rfl

/-- The per-node score adjustment exactly as claim C4 states it: +15
whenever `context.industry` occurs (case-insensitively) as a substring of
the node text — with no non-emptiness requirement — and +10 per matching
connection entry. -/
def finalScoreClaim (ctx : Option UserContext) (n : Node) : ℤ :=
  match ctx with
  | none => n.warm_score
  | some c =>
    n.warm_score +
      (if hasSub (lowerStr c.industry) (nodeText n) then 15 else 0) +
      10 * (((c.connections.map lowerStr).countP (fun conn => hasSub conn (nodeText n)) : ℕ) : ℤ)

/-- Counterexample to claim C4 as stated: a supplied context whose
`industry` is the empty string.  The empty string does occur as a substring
of every node text (as in Python, where `"" in s` is `True`), so the claim
awards +15; the code's `if user_industry` truthiness guard skips empty
industries and awards nothing. -/
theorem c4_counterexample :
    finalScore (some ⟨"", []⟩) (sampleNode 1 50 "m") = 50 ∧
    finalScoreClaim (some ⟨"", []⟩) (sampleNode 1 50 "m") = 65 ∧
    hasSub (lowerStr "") (nodeText (sampleNode 1 50 "m")) = true :=
  ⟨by decide, by decide, by decide⟩

theorem foldl_conn_boost (txt : List Char) :
    ∀ (l : List (List Char)) (init : ℤ),
      l.foldl (fun s conn => if hasSub conn txt then s + 10 else s) init =
        init + 10 * ((l.countP (fun conn => hasSub conn txt) : ℕ) : ℤ) := by
  intro l
  induction l with
  | nil => intro init; simp
  | cons c cs ih =>
    intro init
    simp only [List.foldl_cons, List.countP_cons]
    by_cases h : hasSub c txt
    · rw [if_pos h, ih]
      simp [h]
      ring
    · rw [if_neg h, ih]
      simp [h]

/-- Claim C4 (amended): in `find_best_path`'s scoring, each node's
`final_score` starts at `warm_score`; with a context supplied it gains
exactly 15 when `context.industry` is non-empty and occurs
(case-insensitively) in the concatenated `role`/`why_warm`/
`relationship_type` text, and exactly 10 for each entry of
`context.connections` occurring in that text; absent context it equals
`warm_score`. -/
theorem c4_amended (ctx : Option UserContext) (n : Node) :
    finalScore ctx n =
      match ctx with
      | none => n.warm_score
      | some c =>
        n.warm_score +
          (if !(lowerStr c.industry).isEmpty &&
              hasSub (lowerStr c.industry) (nodeText n) then 15 else 0) +
          10 * (((c.connections.map lowerStr).countP
              (fun conn => hasSub conn (nodeText n)) : ℕ) : ℤ) := by
  cases ctx with
  | none => rfl
  | some c =>
    simp only [finalScore]
    rw [foldl_conn_boost]

/-- Claim C5: `get_graph_data` returns exactly `n + 1` visual nodes (the
synthetic `"celebrity"` node first, then one node per input node, in input
order) and exactly `n` edges, each from the corresponding input node's id
to `"celebrity"`; nothing is filtered or duplicated. -/
theorem get_graph_data_shape (nodes : List Node) (nm : String) :
    (get_graph_data nodes nm).nodes.length = nodes.length + 1 ∧
    (get_graph_data nodes nm).edges.length = nodes.length ∧
    (get_graph_data nodes nm).nodes.map VisNode.id = "celebrity" :: nodes.map Node.id ∧
    (get_graph_data nodes nm).edges.map (fun e => (e.from_, e.to_)) =
      nodes.map (fun n => (n.id, "celebrity")) := by
  refine ⟨?_, ?_, ?_, ?_⟩ <;>
    simp [get_graph_data, celebrityVisNode, mkVisNode, mkVisEdge, List.map_map, Function.comp]

/-- The fixed six-entry color table of the specification, keyed on
`relationship_type`. -/
def colorTable : List (String × String) :=
  [("manager", "#FF6B6B"), ("investor", "#4ECDC4"), ("collaborator", "#45B7D1"),
   ("media", "#96CEB4"), ("colleague", "#FFEAA7"), ("partner", "#DDA0DD")]

theorem colorOf_eq_lookup (rt : String) :
    colorOf rt = (colorTable.lookup rt).getD "#A0A0A0" := by
  have k : ∀ (key v : String) (rest : List (String × String)), rt ≠ key →
      List.lookup rt ((key, v) :: rest) = List.lookup rt rest := by
    intro key v rest hne
    simp [List.lookup, beq_eq_false_iff_ne.mpr hne]
  by_cases h1 : rt = "manager"
  · subst h1; decide
  by_cases h2 : rt = "investor"
  · subst h2; decide
  by_cases h3 : rt = "collaborator"
  · subst h3; decide
  by_cases h4 : rt = "media"
  · subst h4; decide
  by_cases h5 : rt = "colleague"
  · subst h5; decide
  by_cases h6 : rt = "partner"
  · subst h6; decide
  rw [show colorTable = [("manager", "#FF6B6B"), ("investor", "#4ECDC4"),
      ("collaborator", "#45B7D1"), ("media", "#96CEB4"), ("colleague", "#FFEAA7"),
      ("partner", "#DDA0DD")] from rfl,
    k _ _ _ h1, k _ _ _ h2, k _ _ _ h3, k _ _ _ h4, k _ _ _ h5, k _ _ _ h6]
  simp only [colorOf, if_neg h1, if_neg h2, if_neg h3, if_neg h4, if_neg h5, if_neg h6]
  rfl

/-- Claim C8: each input node's visual node has size
`20 + floor(warm_score / 10)` and a color from the fixed six-entry table
keyed on `relationship_type` with neutral fallback `"#A0A0A0"`; each edge
has width 3 exactly when `hop_distance == 1` and 1 otherwise, and its
dashed (indirect) flag is set exactly when `hop_distance > 1`. -/
theorem get_graph_data_styling (nodes : List Node) (nm : String) :
    ((get_graph_data nodes nm).nodes.drop 1).map VisNode.size =
      nodes.map (fun n => 20 + Int.fdiv n.warm_score 10) ∧
    ((get_graph_data nodes nm).nodes.drop 1).map VisNode.color_background =
      nodes.map (fun n => ((colorTable.lookup n.relationship_type).getD "#A0A0A0")) ∧
    ((get_graph_data nodes nm).nodes.drop 1).map VisNode.color_border =
      nodes.map (fun n => ((colorTable.lookup n.relationship_type).getD "#A0A0A0")) ∧
    (get_graph_data nodes nm).edges.map VisEdge.width =
      nodes.map (fun n => if n.hop_distance = 1 then 3 else 1) ∧
    (get_graph_data nodes nm).edges.map VisEdge.dashes =
      nodes.map (fun n => decide (1 < n.hop_distance)) := by
  refine ⟨?_, ?_, ?_, ?_, ?_⟩ <;>
    simp [get_graph_data, mkVisNode, mkVisEdge, List.map_map, Function.comp,
      colorOf_eq_lookup]

theorem orderedInsert_congr (r s : ScoredNode → ScoredNode → Prop)
    [DecidableRel r] [DecidableRel s] (a : ScoredNode) (l : List ScoredNode)
    (h : ∀ b ∈ l, (r a b ↔ s a b)) :
    l.orderedInsert r a = l.orderedInsert s a := by
  induction l with
  | nil => rfl
  | cons b bs ih =>
    simp only [List.orderedInsert]
    by_cases hr : r a b
    · rw [if_pos hr, if_pos ((h b (by simp)).mp hr)]
    · rw [if_neg hr, if_neg (fun hsab => hr ((h b (by simp)).mpr hsab)),
        ih (fun c hc => h c (by simp [hc]))]

theorem insertionSort_congr (r s : ScoredNode → ScoredNode → Prop)
    [DecidableRel r] [DecidableRel s] (l : List ScoredNode)
    (h : ∀ a ∈ l, ∀ b ∈ l, (r a b ↔ s a b)) :
    l.insertionSort r = l.insertionSort s := by
  induction l with
  | nil => rfl
  | cons a as ih =>
    simp only [List.insertionSort]
    rw [ih (fun x hx y hy => h x (by simp [hx]) y (by simp [hy]))]
    apply orderedInsert_congr
    intro b hb
    have hbmem : b ∈ as := (List.mem_insertionSort s).mp hb
    exact h a (by simp) b (by simp [hbmem])

/-- Descending comparison on `final_score` alone — the secondary sort key
of the specification, which (claim C9) is the only key that ever matters. -/
def finalDescLE (a b : ScoredNode) : Prop := b.final_score ≤ a.final_score

instance : DecidableRel finalDescLE := fun a b => by unfold finalDescLE; infer_instance

/-- Claim C9: whenever every `hop_distance` is at least 1, the first
component of the Python sort key `(-hop_distance == 1, -final_score)` is
`False` (encoded `0`) for every scored node, so the stable sort
`find_best_path` performs coincides with the stable descending sort by
`final_score` alone; ties keep input order because `insertionSort` is
stable. -/
theorem sort_ignores_hop_distance (nodes : List Node) (ctx : Option UserContext)
    (h : ∀ n ∈ nodes, 1 ≤ n.hop_distance) :
    (∀ s ∈ scoreNodes ctx nodes, (sortKey s).1 = 0) ∧
    (scoreNodes ctx nodes).insertionSort keyLE =
      (scoreNodes ctx nodes).insertionSort finalDescLE := by
  have hkey : ∀ s ∈ scoreNodes ctx nodes, (sortKey s).1 = 0 := by
    intro s hs
    obtain ⟨n, hn, rfl⟩ := List.mem_map.mp hs
    have := h n hn
    simp only [sortKey]
    rw [if_neg (by omega)]
  refine ⟨hkey, ?_⟩
  apply insertionSort_congr
  intro a ha b hb
  have ka := hkey a ha
  have kb := hkey b hb
  have h2a : (sortKey a).2 = -a.final_score := rfl
  have h2b : (sortKey b).2 = -b.final_score := rfl
  unfold keyLE finalDescLE
  rw [ka, kb, h2a, h2b]
  constructor
  · rintro (hlt | ⟨-, hle⟩)
    · omega
    · omega
  · intro hle
    right
    exact ⟨rfl, by omega⟩

/-- Witness for C9 on a concrete node list with all hop distances ≥ 1. -/
theorem sort_ignores_hop_distance_witness :
    (∀ n ∈ c1Nodes, 1 ≤ n.hop_distance) ∧
    ((∀ s ∈ scoreNodes none c1Nodes, (sortKey s).1 = 0) ∧
      (scoreNodes none c1Nodes).insertionSort keyLE =
        (scoreNodes none c1Nodes).insertionSort finalDescLE) :=
  ⟨by decide, sort_ignores_hop_distance c1Nodes none (by decide)⟩

/-- Claim C10: writing `e` for the top-ranked scored node, the path always
has length 1 or 2; the entry point is always `e`; when `e` is not direct
(`hop_distance > 1`) and some 1-hop node exists, the path is exactly
`[e, b]` with `b` the highest-ranked 1-hop node appended second (never
prepended), so the entry point is the non-direct node; in every other
non-empty case the path is exactly `[e]`. -/
theorem path_shape (nodes : List Node) (ctx : Option UserContext)
    (e : ScoredNode) (rest : List ScoredNode)
    (hs : List.insertionSort keyLE (scoreNodes ctx nodes) = e :: rest) :
    ((find_best_path nodes ctx).path.length = 1 ∨
      (find_best_path nodes ctx).path.length = 2) ∧
    (find_best_path nodes ctx).entry_point = some (mkPathEntry e) ∧
    (1 < e.node.hop_distance →
      (∀ b bs, (e :: rest).filter (fun s => s.node.hop_distance == 1) = b :: bs →
        (find_best_path nodes ctx).path = [mkPathEntry e, mkPathEntry b] ∧
          b.node.hop_distance = 1) ∧
      ((e :: rest).filter (fun s => s.node.hop_distance == 1) = [] →
        (find_best_path nodes ctx).path = [mkPathEntry e])) ∧
    (¬1 < e.node.hop_distance → (find_best_path nodes ctx).path = [mkPathEntry e]) := by
  have hnn : nodes ≠ [] := by
    intro hn
    subst hn
    simp [scoreNodes, List.insertionSort] at hs
  simp only [find_best_path, if_neg hnn, hs]
  refine ⟨?_, by trivial, ?_, ?_⟩
  · by_cases hh : 1 < e.node.hop_distance
    · rw [if_pos hh]
      cases hf : (e :: rest).filter (fun s => s.node.hop_distance == 1) with
      | nil => left; simp
      | cons b bs => right; simp
    · rw [if_neg hh]
      left
      simp
  · intro hh
    constructor
    · intro b bs hf
      rw [if_pos hh, hf]
      refine ⟨rfl, ?_⟩
      have hb : b ∈ (e :: rest).filter (fun s => s.node.hop_distance == 1) := by
        rw [hf]; simp
      have := (List.mem_filter.mp hb).2
      simpa using this
    · intro hf
      rw [if_pos hh, hf]
  · intro hh
    rw [if_neg hh]

/-- Witness for C10: on `c1Nodes` the top-ranked node is the 2-hop one and
a 1-hop bridge exists, so the path is exactly the pair with the bridge
appended. -/
theorem path_shape_witness :
    (find_best_path c1Nodes none).path =
      [mkPathEntry ⟨sampleNode 2 90 "m", 90⟩, mkPathEntry ⟨sampleNode 1 50 "m", 50⟩] ∧
    (find_best_path c1Nodes none).entry_point =
      some (mkPathEntry ⟨sampleNode 2 90 "m", 90⟩) := by
  have h := path_shape c1Nodes none ⟨sampleNode 2 90 "m", 90⟩
    [⟨sampleNode 1 50 "m", 50⟩] (by decide)
  exact ⟨((h.2.2.1 (by decide)).1 ⟨sampleNode 1 50 "m", 50⟩ [] (by decide)).1, h.2.1⟩
